import Mathlib

/-!
Shallow embedding of the NetworkXJS strict undirected graph container
(class Graph). JS strings are modelled as lists of characters, JS numbers
used as node identifiers as integers (the specification admits integral
and textual identifier kinds), and JS Map and Set as insertion-ordered
association lists and element lists with unique keys and elements.
JS Map.delete and Set.delete remove the unique matching entry; the
models below remove every matching entry, which coincides on the
unique-key states the container produces.
-/

namespace NXJS

/-- A JS value supplied as a node identifier: a number, a string, or a
value of any other typeof kind (tagged by its string coercion).
The container accepts only the first two kinds. -/
inductive JId where
  | num (n : Int)
  | str (s : List Char)
  | other (tag : List Char)
deriving DecidableEq

/-- Kind check of Graph._checkValidId: typeof id must be string or number. -/
def JId.valid : JId → Bool
  | .num _ => true
  | .str _ => true
  | .other _ => false

/-- A value stored in an attribute record. -/
inductive JVal where
  | vnum (n : Int)
  | vstr (s : List Char)
deriving DecidableEq

/-- A JS plain object used as an attribute record: its own enumerable
string properties in insertion order, keys unique. -/
abbrev Attr := List (List Char × JVal)

/-- JS Map.get on an association list. -/
def mapGet {α β : Type} [DecidableEq α] : List (α × β) → α → Option β
  | [], _ => none
  | (k, v) :: rest, x => if k = x then some v else mapGet rest x

/-- JS Map.set: update the entry in place when the key is present,
append a new entry otherwise. -/
def mapSet {α β : Type} [DecidableEq α] : List (α × β) → α → β → List (α × β)
  | [], k, v => [(k, v)]
  | (k0, v0) :: rest, k, v =>
    if k0 = k then (k, v) :: rest else (k0, v0) :: mapSet rest k v

/-- JS Map.delete: drop the entries with the given key. -/
def mapDelete {α β : Type} [DecidableEq α] : List (α × β) → α → List (α × β)
  | [], _ => []
  | (k0, v0) :: rest, k =>
    if k0 = k then mapDelete rest k else (k0, v0) :: mapDelete rest k

/-- The keys of a JS Map, in order. -/
def mapKeys {α β : Type} (m : List (α × β)) : List α := m.map Prod.fst

/-- JS Set.add: append when absent. -/
def setAdd {α : Type} [DecidableEq α] (s : List α) (x : α) : List α :=
  if x ∈ s then s else s ++ [x]

/-- JS Set.delete: drop the occurrences of an element. -/
def setDelete {α : Type} [DecidableEq α] : List α → α → List α
  | [], _ => []
  | y :: ys, x => if y = x then setDelete ys x else y :: setDelete ys x

/-- The decimal digit character for d. -/
def digitChar (d : Nat) : Char := Char.ofNat (48 + d)

/-- Helper for natDigs with an explicit fuel bound, which keeps the
definition structurally recursive (and hence kernel-evaluable). -/
def natDigsAux : Nat → Nat → List Char
  | 0, _ => []
  | fuel + 1, n =>
    if n < 10 then [digitChar n]
    else natDigsAux fuel (n / 10) ++ [digitChar (n % 10)]

/-- The decimal digit string of a natural number, as produced by the JS
String() conversion. -/
def natDigs (n : Nat) : List Char := natDigsAux (n + 1) n

/-- JS String() of an integer. -/
def intStr : Int → List Char
  | .ofNat n => natDigs n
  | .negSucc n => '-' :: natDigs (n + 1)

/-- Graph._typedId: the kind-tagged string form of an identifier. For a
value of another typeof kind the template string would coerce it to its
tag; the container never reaches that case on guarded paths. -/
def typedId : JId → List Char
  | .num n => 'n' :: ':' :: intStr n
  | .str s => 's' :: ':' :: s
  | .other t => 's' :: ':' :: t

/-- JS string comparison (lexicographic on code units), as applied by
Array.prototype.sort to the two typed ids in Graph._edgeKey. -/
def strLt : List Char → List Char → Bool
  | _, [] => false
  | [], _ :: _ => true
  | a :: as, b :: bs =>
    if a.toNat < b.toNat then true
    else if b.toNat < a.toNat then false
    else strLt as bs

/-- Graph._edgeKey: sort the two typed ids and join them with the bar
separator, so that both argument orders produce the same key. -/
def edgeKey (u v : JId) : List Char :=
  if strLt (typedId v) (typedId u) then typedId v ++ '|' :: typedId u
  else typedId u ++ '|' :: typedId v

/-- The errors thrown by the container, tagged by kind as in the spec:
InvalidIdentifier, DuplicateNode, NodeNotFound (endpoint-specific) and
EdgeNotFound. -/
inductive GErr where
  | invalidId (id : JId)
  | duplicateNode (id : JId)
  | nodeNotFound (id : JId)
  | edgeNotFound (u v : JId)
deriving DecidableEq

/-- The Graph container state: adjacency map, node attribute map and
edge attribute map keyed by the canonical pair key. -/
structure Graph where
  adj : List (JId × List JId)
  nodesData : List (JId × Attr)
  edgesData : List (List Char × Attr)
deriving DecidableEq

/-- The state produced by the constructor. -/
def Graph.empty : Graph := ⟨[], [], []⟩

/-- Graph.hasNode. -/
def Graph.hasNode (g : Graph) (id : JId) : Bool := (mapGet g.adj id).isSome

/-- Graph.addNode: kind check, duplicate check, then create an empty
neighbor set and store a copy of the attribute record. Mutating
operations return the state as of return or throw together with the
error, if any. -/
def Graph.addNode (g : Graph) (id : JId) (attr : Attr) : Graph × Option GErr :=
  if id.valid = false then (g, some (.invalidId id))
  else if g.hasNode id then (g, some (.duplicateNode id))
  else ({ g with
            adj := mapSet g.adj id [],
            nodesData := mapSet g.nodesData id attr }, none)

/-- An element of the sequence passed to addNodesFrom: a bare identifier
or an identifier paired with an attribute record (a JS array item). -/
inductive NodeItem where
  | bare (id : JId)
  | pair (id : JId) (attr : Attr)
deriving DecidableEq

/-- One iteration of the addNodesFrom loop body. -/
def Graph.addNodeItem (g : Graph) : NodeItem → Graph × Option GErr
  | .bare id => g.addNode id []
  | .pair id attr => g.addNode id attr

/-- Graph.addNodesFrom: apply addNode to each item in sequence, stopping
at the first error and keeping the nodes already added. -/
def Graph.addNodesFrom (g : Graph) : List NodeItem → Graph × Option GErr
  | [] => (g, none)
  | item :: rest =>
    match g.addNodeItem item with
    | (g1, none) => g1.addNodesFrom rest
    | (g1, some e) => (g1, some e)

/-- Graph.node: NodeNotFound check, then the stored record (Map.get may
in principle miss, hence the Option). -/
def Graph.node (g : Graph) (id : JId) : Except GErr (Option Attr) :=
  if g.hasNode id then .ok (mapGet g.nodesData id) else .error (.nodeNotFound id)

/-- adj.get(x).add(y). When x has no entry the JS code would fault; the
guarded call sites ensure the entry exists, and the model leaves the
map unchanged in that unreachable case. -/
def adjAdd (a : List (JId × List JId)) (x y : JId) : List (JId × List JId) :=
  match mapGet a x with
  | none => a
  | some s => mapSet a x (setAdd s y)

/-- adj.get(x).delete(y), with the same unreachable-case convention as
adjAdd. -/
def adjDel (a : List (JId × List JId)) (x y : JId) : List (JId × List JId) :=
  match mapGet a x with
  | none => a
  | some s => mapSet a x (setDelete s y)

/-- Graph.removeNode: NodeNotFound check; then for each neighbor in the
call-time neighbor set, remove the reciprocal adjacency entry and the
edge attribute record; finally drop the node from the adjacency and
node attribute maps. -/
def Graph.removeNode (g : Graph) (id : JId) : Graph × Option GErr :=
  match mapGet g.adj id with
  | none => (g, some (.nodeNotFound id))
  | some ns =>
    ({ adj := mapDelete (ns.foldl (fun a nbr => adjDel a nbr id) g.adj) id,
       nodesData := mapDelete g.nodesData id,
       edgesData := ns.foldl (fun e nbr => mapDelete e (edgeKey id nbr)) g.edgesData },
     none)

/-- Object.assign(target, src): copy the fields of src onto target in
order; the last write per field wins. -/
def objAssign (target src : Attr) : Attr :=
  src.foldl (fun t kv => mapSet t kv.1 kv.2) target

/-- Graph.addEdge: kind checks on u then v, existence checks on u then
v, then the two adjacency insertions and the store-or-merge of the
attribute record under the canonical pair key. -/
def Graph.addEdge (g : Graph) (u v : JId) (attr : Attr) : Graph × Option GErr :=
  if u.valid = false then (g, some (.invalidId u))
  else if v.valid = false then (g, some (.invalidId v))
  else if g.hasNode u = false then (g, some (.nodeNotFound u))
  else if g.hasNode v = false then (g, some (.nodeNotFound v))
  else
    ({ g with
       adj := adjAdd (adjAdd g.adj u v) v u,
       edgesData :=
         match mapGet g.edgesData (edgeKey u v) with
         | none => mapSet g.edgesData (edgeKey u v) attr
         | some old => mapSet g.edgesData (edgeKey u v) (objAssign old attr) },
     none)

/-- Graph.hasEdge: false when u has no adjacency entry, else membership
of v in the neighbor set; total, it never throws. -/
def Graph.hasEdge (g : Graph) (u v : JId) : Bool :=
  match mapGet g.adj u with
  | none => false
  | some s => decide (v ∈ s)

/-- Graph.edge: EdgeNotFound check via hasEdge, then the record at the
canonical pair key. -/
def Graph.edge (g : Graph) (u v : JId) : Except GErr (Option Attr) :=
  if g.hasEdge u v then .ok (mapGet g.edgesData (edgeKey u v))
  else .error (.edgeNotFound u v)

/-- Graph.removeEdge: EdgeNotFound check, then both adjacency deletions
and the removal of the attribute record. -/
def Graph.removeEdge (g : Graph) (u v : JId) : Graph × Option GErr :=
  if g.hasEdge u v then
    ({ g with
         adj := adjDel (adjDel g.adj u v) v u,
         edgesData := mapDelete g.edgesData (edgeKey u v) }, none)
  else (g, some (.edgeNotFound u v))

/-- Graph.neighbors: NodeNotFound check, then the neighbor set as a
sequence. -/
def Graph.neighbors (g : Graph) (id : JId) : Except GErr (List JId) :=
  match mapGet g.adj id with
  | none => .error (.nodeNotFound id)
  | some s => .ok s

/-- Graph.numberOfNodes. -/
def Graph.numberOfNodes (g : Graph) : Nat := g.adj.length

/-- Graph.nodes. -/
def Graph.nodes (g : Graph) : List JId := mapKeys g.adj

/-- Graph.numberOfEdges. -/
def Graph.numberOfEdges (g : Graph) : Nat := g.edgesData.length

/-- String.prototype.split with the bar separator. -/
def splitOnBar : List Char → List (List Char)
  | [] => [[]]
  | c :: rest =>
    if c = '|' then [] :: splitOnBar rest
    else
      match splitOnBar rest with
      | [] => [[c]]
      | p :: ps => (c :: p) :: ps

/-- The numeric value of a digit string. -/
def parseDigs (s : List Char) : Nat := s.foldl (fun a c => a * 10 + (c.toNat - 48)) 0

/-- JS Number() as applied to the id fragments produced by edges(): an
optional leading minus sign followed by decimal digits; Number of the
empty string is 0. -/
def jsNumber (s : List Char) : Int :=
  if s.take 1 = ['-'] then - (parseDigs (s.drop 1) : Int) else (parseDigs s : Int)

/-- Reconstruction of one endpoint in Graph.edges: a fragment starting
with the numeric kind tag is parsed as a number, any other fragment has
its first two characters stripped and is kept as a string. -/
def decodePart (t : List Char) : JId :=
  if t.take 2 = ['n', ':'] then .num (jsNumber (t.drop 2)) else .str (t.drop 2)

/-- Graph.edges: one triple per stored edge record, with both endpoints
reconstructed from the first two bar-separated fragments of the key. -/
def Graph.edges (g : Graph) : List (JId × JId × Attr) :=
  g.edgesData.map (fun ka =>
    let parts := splitOnBar ka.1
    (decodePart (parts.getD 0 []), decodePart (parts.getD 1 []), ka.2))

/-- The identifier of an addNodesFrom item. -/
def NodeItem.idOf : NodeItem → JId
  | .bare id => id
  | .pair id _ => id

/-- An identifier of an accepted kind whose kind-tagged form is free of
the bar separator used by the canonical pair key: any number, or a
string not containing the bar character. -/
def GoodId (id : JId) : Prop := id.valid = true ∧ '|' ∉ typedId id

/-- y lies in the neighbor set of x in the adjacency map a. -/
def adjMem (a : List (JId × List JId)) (x y : JId) : Prop :=
  ∃ s, mapGet a x = some s ∧ y ∈ s

/-- Bidirectional adjacency: every neighbor entry has a reciprocal
entry (which also gives that every identifier in a neighbor set has a
node entry of its own). -/
def AdjSym (g : Graph) : Prop :=
  ∀ x y, adjMem g.adj x y → adjMem g.adj y x

/-- Every stored edge record is keyed by the canonical pair key of two
adjacent nodes. -/
def EdgesRef (g : Graph) : Prop :=
  ∀ k ∈ mapKeys g.edgesData, ∃ u v, adjMem g.adj u v ∧ k = edgeKey u v

/-- The node attribute map and the adjacency map hold exactly the same
keys in the same order. -/
def KeysEq (g : Graph) : Prop := mapKeys g.nodesData = mapKeys g.adj

/-- The edge record store has no duplicate keys. -/
def EdgesNodup (g : Graph) : Prop := (mapKeys g.edgesData).Nodup

/-- Every node of the graph has a good identifier. -/
def GoodG (g : Graph) : Prop := ∀ u, (mapGet g.adj u).isSome = true → GoodId u

/-- The combined structural invariant of reachable container states. -/
def WF (g : Graph) : Prop := AdjSym g ∧ EdgesRef g ∧ KeysEq g ∧ EdgesNodup g

/-- The states reachable from the empty container by any sequence of
operation calls (failing calls included: they return the state they
leave behind). -/
inductive Reachable : Graph → Prop where
  | empty : Reachable Graph.empty
  | addNode (g : Graph) (id : JId) (attr : Attr) :
      Reachable g → Reachable (g.addNode id attr).1
  | addNodesFrom (g : Graph) (items : List NodeItem) :
      Reachable g → Reachable (g.addNodesFrom items).1
  | removeNode (g : Graph) (id : JId) :
      Reachable g → Reachable (g.removeNode id).1
  | addEdge (g : Graph) (u v : JId) (attr : Attr) :
      Reachable g → Reachable (g.addEdge u v attr).1
  | removeEdge (g : Graph) (u v : JId) :
      Reachable g → Reachable (g.removeEdge u v).1

/-- The states reachable when every identifier handed to the node
creation operations is good (bar-free); the other operations may be
called with anything. -/
inductive ReachableG : Graph → Prop where
  | empty : ReachableG Graph.empty
  | addNode (g : Graph) (id : JId) (attr : Attr) :
      ReachableG g → GoodId id → ReachableG (g.addNode id attr).1
  | addNodesFrom (g : Graph) (items : List NodeItem) :
      ReachableG g → (∀ item ∈ items, GoodId item.idOf) →
      ReachableG (g.addNodesFrom items).1
  | removeNode (g : Graph) (id : JId) :
      ReachableG g → ReachableG (g.removeNode id).1
  | addEdge (g : Graph) (u v : JId) (attr : Attr) :
      ReachableG g → ReachableG (g.addEdge u v attr).1
  | removeEdge (g : Graph) (u v : JId) :
      ReachableG g → ReachableG (g.removeEdge u v).1

/-- Example container: nodes 1, 2 and A, no edge yet. -/
def exBase : Graph :=
  (((Graph.empty.addNode (.num 1) []).1.addNode (.num 2) []).1.addNode
    (.str ['A']) []).1

/-- Example container: nodes 1, 2 and A, and an edge between 1 and A
carrying one weight field. -/
def exGraph : Graph :=
  (exBase.addEdge (.num 1) (.str ['A']) [(['w'], .vnum 5)]).1

/-- Example container with the two nodes 1 and 2 and no edge. -/
def twoGraph : Graph :=
  ((Graph.empty.addNode (.num 1) []).1.addNode (.num 2) []).1

/-- Example container where the edge between 1 and 2 was declared once
with one field. -/
def mergeGraph : Graph :=
  (twoGraph.addEdge (.num 1) (.num 2) [(['a'], .vnum 1)]).1

/-- Example container whose single textual node name contains the bar
separator of the canonical pair key, with a self loop on it. -/
def barGraph : Graph :=
  ((Graph.empty.addNode (.str ['a', '|', 'b']) []).1.addEdge
    (.str ['a', '|', 'b']) (.str ['a', '|', 'b']) []).1

/-- Example container with one node carrying a self loop. -/
def loopGraph : Graph :=
  ((Graph.empty.addNode (.num 7) []).1.addEdge (.num 7) (.num 7) []).1

/-! Lemmas about the JS Map and Set models. -/

theorem mapKeys_nil {α β : Type} : mapKeys ([] : List (α × β)) = [] := rfl

theorem mapKeys_cons {α β : Type} (p : α × β) (rest : List (α × β)) :
    mapKeys (p :: rest) = p.1 :: mapKeys rest := rfl

theorem mem_mapKeys {α β : Type} (m : List (α × β)) (k : α) :
    k ∈ mapKeys m ↔ ∃ v, (k, v) ∈ m := by
  induction m with
  | nil => simp [mapKeys_nil]
  | cons p rest ih =>
    obtain ⟨k0, v0⟩ := p
    rw [mapKeys_cons]
    simp only [List.mem_cons, ih]
    constructor
    · rintro (rfl | ⟨v, hv⟩)
      · exact ⟨v0, Or.inl rfl⟩
      · exact ⟨v, Or.inr hv⟩
    · rintro ⟨v, (hv | hv)⟩
      · rw [Prod.ext_iff] at hv
        exact Or.inl hv.1
      · exact Or.inr ⟨v, hv⟩

theorem mapGet_mapSet_self {α β : Type} [DecidableEq α] (m : List (α × β)) (k : α) (v : β) :
    mapGet (mapSet m k v) k = some v := by
  induction m with
  | nil => simp [mapSet, mapGet]
  | cons p rest ih =>
    obtain ⟨k0, v0⟩ := p
    by_cases h : k0 = k
    · simp [mapSet, h, mapGet]
    · simp [mapSet, h, mapGet, ih]

theorem mapGet_mapSet_ne {α β : Type} [DecidableEq α] (m : List (α × β)) (k x : α) (v : β)
    (h : k ≠ x) : mapGet (mapSet m k v) x = mapGet m x := by
  induction m with
  | nil => simp [mapSet, mapGet, h]
  | cons p rest ih =>
    obtain ⟨k0, v0⟩ := p
    by_cases h0 : k0 = k
    · subst h0
      simp [mapSet, mapGet, h]
    · simp [mapSet, h0, mapGet, ih]

theorem mapGet_eq_none_iff {α β : Type} [DecidableEq α] (m : List (α × β)) (k : α) :
    mapGet m k = none ↔ k ∉ mapKeys m := by
  induction m with
  | nil => simp [mapGet, mapKeys]
  | cons p rest ih =>
    obtain ⟨k0, v0⟩ := p
    by_cases h : k0 = k
    · subst h
      simp [mapGet, mapKeys]
    · simp [mapGet, h, mapKeys, Ne.symm h] at ih ⊢
      exact ih

theorem mapGet_isSome_iff {α β : Type} [DecidableEq α] (m : List (α × β)) (k : α) :
    (mapGet m k).isSome = true ↔ k ∈ mapKeys m := by
  cases h : mapGet m k with
  | none =>
    rw [mapGet_eq_none_iff] at h
    simp [h]
  | some v =>
    have hne : ¬ (mapGet m k = none) := by simp [h]
    rw [mapGet_eq_none_iff] at hne
    simpa using hne

theorem mapKeys_mapSet_of_mem {α β : Type} [DecidableEq α] (m : List (α × β)) (k : α) (v : β)
    (h : k ∈ mapKeys m) : mapKeys (mapSet m k v) = mapKeys m := by
  induction m with
  | nil => simp [mapKeys] at h
  | cons p rest ih =>
    obtain ⟨k0, v0⟩ := p
    by_cases h0 : k0 = k
    · subst h0
      simp [mapSet, mapKeys]
    · simp [mapKeys, Ne.symm h0] at h
      obtain ⟨w, hw⟩ := h
      have hk : k ∈ mapKeys rest := List.mem_map_of_mem Prod.fst hw
      simp [mapSet, h0, mapKeys]
      have := ih hk
      simpa [mapKeys] using this

theorem mapKeys_mapSet_of_not_mem {α β : Type} [DecidableEq α] (m : List (α × β)) (k : α) (v : β)
    (h : k ∉ mapKeys m) : mapKeys (mapSet m k v) = mapKeys m ++ [k] := by
  induction m with
  | nil => simp [mapSet, mapKeys]
  | cons p rest ih =>
    obtain ⟨k0, v0⟩ := p
    simp [mapKeys] at h
    push_neg at h
    have hk : k ∉ mapKeys rest := by
      intro hmem
      obtain ⟨b, hab⟩ := (mem_mapKeys rest k).mp hmem
      exact h.2 b hab
    simp [mapSet, Ne.symm h.1, mapKeys]
    have := ih hk
    simpa [mapKeys] using this

theorem mem_mapKeys_mapSet {α β : Type} [DecidableEq α] (m : List (α × β)) (k x : α) (v : β) :
    x ∈ mapKeys (mapSet m k v) ↔ x ∈ mapKeys m ∨ x = k := by
  by_cases h : k ∈ mapKeys m
  · rw [mapKeys_mapSet_of_mem m k v h]
    constructor
    · exact fun hx => Or.inl hx
    · rintro (hx | rfl)
      · exact hx
      · exact h
  · rw [mapKeys_mapSet_of_not_mem m k v h]
    simp

theorem mapGet_mapDelete_self {α β : Type} [DecidableEq α] (m : List (α × β)) (k : α) :
    mapGet (mapDelete m k) k = none := by
  induction m with
  | nil => simp [mapDelete, mapGet]
  | cons p rest ih =>
    obtain ⟨k0, v0⟩ := p
    by_cases h : k0 = k
    · simp [mapDelete, h, ih]
    · simp [mapDelete, h, mapGet, ih]

theorem mapGet_mapDelete_ne {α β : Type} [DecidableEq α] (m : List (α × β)) (k x : α)
    (h : k ≠ x) : mapGet (mapDelete m k) x = mapGet m x := by
  induction m with
  | nil => simp [mapDelete]
  | cons p rest ih =>
    obtain ⟨k0, v0⟩ := p
    by_cases h0 : k0 = k
    · subst h0
      simp [mapDelete, mapGet, h, ih]
    · simp [mapDelete, h0, mapGet, ih]

theorem mem_setDelete {α : Type} [DecidableEq α] (s : List α) (x y : α) :
    y ∈ setDelete s x ↔ y ∈ s ∧ y ≠ x := by
  induction s with
  | nil => simp [setDelete]
  | cons z zs ih =>
    by_cases h : z = x
    · subst h
      rw [setDelete, if_pos rfl, ih]
      constructor
      · exact fun hy => ⟨List.mem_cons_of_mem _ hy.1, hy.2⟩
      · rintro ⟨hmem, hne⟩
        rcases List.mem_cons.mp hmem with h1 | h1
        · exact absurd h1 hne
        · exact ⟨h1, hne⟩
    · rw [setDelete, if_neg h]
      simp only [List.mem_cons, ih]
      constructor
      · rintro (rfl | hy)
        · exact ⟨Or.inl rfl, fun he => h (he ▸ rfl)⟩
        · exact ⟨Or.inr hy.1, hy.2⟩
      · rintro ⟨rfl | hy, hne⟩
        · exact Or.inl rfl
        · exact Or.inr ⟨hy, hne⟩

theorem setDelete_setDelete {α : Type} [DecidableEq α] (s : List α) (x : α) :
    setDelete (setDelete s x) x = setDelete s x := by
  induction s with
  | nil => simp [setDelete]
  | cons z zs ih =>
    by_cases h : z = x
    · simp [setDelete, h, ih]
    · simp [setDelete, h, ih]

theorem mem_setAdd {α : Type} [DecidableEq α] (s : List α) (x y : α) :
    y ∈ setAdd s x ↔ y ∈ s ∨ y = x := by
  by_cases h : x ∈ s
  · simp only [setAdd, if_pos h]
    constructor
    · exact fun hy => Or.inl hy
    · rintro (hy | rfl)
      · exact hy
      · exact h
  · simp [setAdd, if_neg h]

theorem mapKeys_mapDelete {α β : Type} [DecidableEq α] (m : List (α × β)) (k : α) :
    mapKeys (mapDelete m k) = setDelete (mapKeys m) k := by
  induction m with
  | nil => rfl
  | cons p rest ih =>
    obtain ⟨k0, v0⟩ := p
    by_cases h : k0 = k
    · rw [mapDelete, if_pos h, mapKeys_cons, setDelete, if_pos h, ih]
    · rw [mapDelete, if_neg h, mapKeys_cons, mapKeys_cons, setDelete, if_neg h, ih]

theorem mem_of_mapGet_eq_some {α β : Type} [DecidableEq α] (m : List (α × β)) (k : α) (v : β)
    (h : mapGet m k = some v) : (k, v) ∈ m := by
  induction m with
  | nil => simp [mapGet] at h
  | cons p rest ih =>
    obtain ⟨k0, v0⟩ := p
    by_cases h0 : k0 = k
    · subst h0
      simp [mapGet] at h
      simp [h]
    · simp [mapGet, h0] at h
      exact List.mem_cons_of_mem _ (ih h)

theorem mapGet_eq_some_of_mem_nodup {α β : Type} [DecidableEq α] (m : List (α × β)) (k : α)
    (v : β) (hnd : (mapKeys m).Nodup) (h : (k, v) ∈ m) : mapGet m k = some v := by
  induction m with
  | nil => simp at h
  | cons p rest ih =>
    obtain ⟨k0, v0⟩ := p
    rw [mapKeys_cons] at hnd
    rw [List.nodup_cons] at hnd
    rcases List.mem_cons.mp h with h1 | h1
    · rw [Prod.ext_iff] at h1
      obtain ⟨hk, hv⟩ := h1
      simp only at hk hv
      subst hk
      simp [mapGet, hv]
    · by_cases h0 : k0 = k
      · subst h0
        have : k0 ∈ mapKeys rest := (mem_mapKeys rest k0).mpr ⟨v, h1⟩
        exact absurd this hnd.1
      · simp only [mapGet, if_neg h0]
        exact ih hnd.2 h1

theorem nodup_mapKeys_mapSet {α β : Type} [DecidableEq α] (m : List (α × β)) (k : α) (v : β)
    (h : (mapKeys m).Nodup) : (mapKeys (mapSet m k v)).Nodup := by
  by_cases hk : k ∈ mapKeys m
  · rwa [mapKeys_mapSet_of_mem m k v hk]
  · rw [mapKeys_mapSet_of_not_mem m k v hk]
    simp [List.nodup_append, h, hk]

theorem nodup_setDelete {α : Type} [DecidableEq α] (s : List α) (x : α)
    (h : s.Nodup) : (setDelete s x).Nodup := by
  induction s with
  | nil => simp [setDelete]
  | cons z zs ih =>
    simp at h
    by_cases hz : z = x
    · simp [setDelete, hz, ih h.2]
    · simp [setDelete, hz, ih h.2]
      intro hmem
      exact h.1 ((mem_setDelete zs x z).mp hmem).1

theorem nodup_mapKeys_mapDelete {α β : Type} [DecidableEq α] (m : List (α × β)) (k : α)
    (h : (mapKeys m).Nodup) : (mapKeys (mapDelete m k)).Nodup := by
  rw [mapKeys_mapDelete]
  exact nodup_setDelete _ _ h

/-! Lemmas about the adjacency update helpers and the removeNode folds. -/

theorem mapGet_adjAdd (a : List (JId × List JId)) (x y z : JId) :
    mapGet (adjAdd a x y) z =
      if z = x then (mapGet a x).map (fun s => setAdd s y) else mapGet a z := by
  unfold adjAdd
  cases h : mapGet a x with
  | none =>
    by_cases hz : z = x
    · subst hz
      simp [h]
    · simp [hz]
  | some s =>
    by_cases hz : z = x
    · subst hz
      simp [h, mapGet_mapSet_self]
    · simp [hz, mapGet_mapSet_ne a x z _ (fun he => hz he.symm)]

theorem mapGet_adjDel (a : List (JId × List JId)) (x y z : JId) :
    mapGet (adjDel a x y) z =
      if z = x then (mapGet a x).map (fun s => setDelete s y) else mapGet a z := by
  unfold adjDel
  cases h : mapGet a x with
  | none =>
    by_cases hz : z = x
    · subst hz
      simp [h]
    · simp [hz]
  | some s =>
    by_cases hz : z = x
    · subst hz
      simp [h, mapGet_mapSet_self]
    · simp [hz, mapGet_mapSet_ne a x z _ (fun he => hz he.symm)]

theorem mapKeys_adjAdd (a : List (JId × List JId)) (x y : JId) :
    mapKeys (adjAdd a x y) = mapKeys a := by
  unfold adjAdd
  cases h : mapGet a x with
  | none => rfl
  | some s =>
    have hx : x ∈ mapKeys a := by
      rw [← mapGet_isSome_iff]
      simp [h]
    exact mapKeys_mapSet_of_mem a x _ hx

theorem mapKeys_adjDel (a : List (JId × List JId)) (x y : JId) :
    mapKeys (adjDel a x y) = mapKeys a := by
  unfold adjDel
  cases h : mapGet a x with
  | none => rfl
  | some s =>
    have hx : x ∈ mapKeys a := by
      rw [← mapGet_isSome_iff]
      simp [h]
    exact mapKeys_mapSet_of_mem a x _ hx

theorem mapGet_foldl_adjDel (ns : List JId) (a : List (JId × List JId)) (id x : JId) :
    mapGet (ns.foldl (fun m nbr => adjDel m nbr id) a) x =
      if x ∈ ns then (mapGet a x).map (fun s => setDelete s id) else mapGet a x := by
  induction ns generalizing a with
  | nil => simp
  | cons nbr rest ih =>
    rw [List.foldl_cons, ih]
    by_cases hx : x ∈ rest
    · rw [if_pos hx, if_pos (List.mem_cons_of_mem _ hx), mapGet_adjDel]
      by_cases he : x = nbr
      · subst he
        rw [if_pos rfl]
        cases mapGet a x with
        | none => rfl
        | some s => simp [setDelete_setDelete]
      · rw [if_neg he]
    · rw [if_neg hx, mapGet_adjDel]
      by_cases he : x = nbr
      · subst he
        rw [if_pos rfl, if_pos (List.mem_cons_self _ _)]
      · rw [if_neg he, if_neg (by simp [he, hx])]

theorem mapKeys_foldl_adjDel (ns : List JId) (a : List (JId × List JId)) (id : JId) :
    mapKeys (ns.foldl (fun m nbr => adjDel m nbr id) a) = mapKeys a := by
  induction ns generalizing a with
  | nil => rfl
  | cons nbr rest ih => rw [List.foldl_cons, ih, mapKeys_adjDel]

theorem mapGet_foldl_mapDelete {κ : Type} [DecidableEq κ] (ns : List JId)
    (ed : List (κ × Attr)) (f : JId → κ) (k : κ) :
    mapGet (ns.foldl (fun e nbr => mapDelete e (f nbr)) ed) k =
      if ∃ nbr ∈ ns, f nbr = k then none else mapGet ed k := by
  induction ns generalizing ed with
  | nil => simp
  | cons nbr rest ih =>
    rw [List.foldl_cons, ih]
    by_cases hr : ∃ n ∈ rest, f n = k
    · rw [if_pos hr, if_pos (by obtain ⟨n, hn, he⟩ := hr; exact ⟨n, List.mem_cons_of_mem _ hn, he⟩)]
    · rw [if_neg hr]
      by_cases he : f nbr = k
      · rw [he, mapGet_mapDelete_self, if_pos ⟨nbr, List.mem_cons_self _ _, he⟩]
      · rw [mapGet_mapDelete_ne _ _ _ he, if_neg (by
          rintro ⟨n, hn, hfe⟩
          rcases List.mem_cons.mp hn with rfl | hn1
          · exact he hfe
          · exact hr ⟨n, hn1, hfe⟩)]

theorem nodup_mapKeys_foldl_mapDelete {κ : Type} [DecidableEq κ] (ns : List JId)
    (ed : List (κ × Attr)) (f : JId → κ)
    (h : (mapKeys ed).Nodup) :
    (mapKeys (ns.foldl (fun e nbr => mapDelete e (f nbr)) ed)).Nodup := by
  induction ns generalizing ed with
  | nil => exact h
  | cons nbr rest ih =>
    rw [List.foldl_cons]
    exact ih _ (nodup_mapKeys_mapDelete _ _ h)

theorem mapKeys_foldl_mapDelete_subset {κ : Type} [DecidableEq κ] (ns : List JId)
    (ed : List (κ × Attr)) (f : JId → κ) (k : κ)
    (h : k ∈ mapKeys (ns.foldl (fun e nbr => mapDelete e (f nbr)) ed)) :
    k ∈ mapKeys ed := by
  induction ns generalizing ed with
  | nil => exact h
  | cons nbr rest ih =>
    rw [List.foldl_cons] at h
    have := ih _ h
    rw [mapKeys_mapDelete] at this
    exact ((mem_setDelete _ _ _).mp this).1

/-! Lemmas about decimal digit strings and the Number round trip. -/

theorem digitChar_toNat (d : Nat) (h : d < 10) : (digitChar d).toNat = 48 + d := by
  interval_cases d <;> decide

theorem natDigsAux_congr (n : Nat) : ∀ f1 f2, n < f1 → n < f2 →
    natDigsAux f1 n = natDigsAux f2 n := by
  induction n using Nat.strong_induction_on with
  | _ n ih =>
    intro f1 f2 h1 h2
    cases f1 with
    | zero => omega
    | succ fa =>
      cases f2 with
      | zero => omega
      | succ fb =>
        by_cases h10 : n < 10
        · simp [natDigsAux, h10]
        · have hd : n / 10 < n := Nat.div_lt_self (by omega) (by decide)
          simp only [natDigsAux, if_neg h10]
          rw [ih (n / 10) hd fa fb (by omega) (by omega)]

theorem natDigs_eq (n : Nat) :
    natDigs n = if n < 10 then [digitChar n]
      else natDigs (n / 10) ++ [digitChar (n % 10)] := by
  have hstep : natDigs n = if n < 10 then [digitChar n]
      else natDigsAux n (n / 10) ++ [digitChar (n % 10)] := rfl
  by_cases h10 : n < 10
  · rw [hstep, if_pos h10, if_pos h10]
  · have hd : n / 10 < n := Nat.div_lt_self (by omega) (by decide)
    rw [hstep, if_neg h10, if_neg h10]
    congr 1
    exact natDigsAux_congr (n / 10) n (n / 10 + 1) hd (by omega)

theorem mem_natDigs (n : Nat) (c : Char) (h : c ∈ natDigs n) :
    48 ≤ c.toNat ∧ c.toNat ≤ 57 := by
  induction n using Nat.strong_induction_on with
  | _ n ih =>
    rw [natDigs_eq] at h
    by_cases h10 : n < 10
    · rw [if_pos h10] at h
      simp at h
      subst h
      rw [digitChar_toNat n h10]
      omega
    · rw [if_neg h10] at h
      rcases List.mem_append.mp h with h1 | h1
      · exact ih (n / 10) (Nat.div_lt_self (by omega) (by decide)) h1
      · simp at h1
        subst h1
        rw [digitChar_toNat _ (Nat.mod_lt _ (by decide))]
        omega

theorem natDigs_ne_nil (n : Nat) : natDigs n ≠ [] := by
  rw [natDigs_eq]
  by_cases h10 : n < 10
  · rw [if_pos h10]
    simp
  · rw [if_neg h10]
    simp

theorem parseDigs_append_one (xs : List Char) (c : Char) :
    parseDigs (xs ++ [c]) = parseDigs xs * 10 + (c.toNat - 48) := by
  simp [parseDigs, List.foldl_append]

theorem parseDigs_natDigs (n : Nat) : parseDigs (natDigs n) = n := by
  induction n using Nat.strong_induction_on with
  | _ n ih =>
    rw [natDigs_eq]
    by_cases h10 : n < 10
    · rw [if_pos h10]
      simp [parseDigs, digitChar_toNat n h10]
    · rw [if_neg h10, parseDigs_append_one,
        ih (n / 10) (Nat.div_lt_self (by omega) (by decide)),
        digitChar_toNat _ (Nat.mod_lt _ (by decide))]
      omega

theorem bar_not_mem_natDigs (n : Nat) : '|' ∉ natDigs n := by
  intro h
  have := mem_natDigs n '|' h
  revert this
  decide

theorem bar_not_mem_intStr (i : Int) : '|' ∉ intStr i := by
  cases i with
  | ofNat n => exact bar_not_mem_natDigs n
  | negSucc n =>
    intro h
    rcases List.mem_cons.mp h with h1 | h1
    · exact absurd h1 (by decide)
    · exact bar_not_mem_natDigs _ h1

theorem jsNumber_natDigs (n : Nat) : jsNumber (natDigs n) = (n : Int) := by
  have hne : (natDigs n).take 1 ≠ ['-'] := by
    cases h : natDigs n with
    | nil => exact absurd h (natDigs_ne_nil n)
    | cons c rest =>
      have hc : 48 ≤ c.toNat ∧ c.toNat ≤ 57 :=
        mem_natDigs n c (by rw [h]; exact List.mem_cons_self c rest)
      simp only [List.take]
      intro he
      have hcc : c = '-' := by simpa using he
      subst hcc
      revert hc
      decide
  rw [jsNumber, if_neg hne, parseDigs_natDigs]

theorem jsNumber_intStr (i : Int) : jsNumber (intStr i) = i := by
  cases i with
  | ofNat n =>
    show jsNumber (natDigs n) = _
    rw [jsNumber_natDigs]
    rfl
  | negSucc n =>
    show jsNumber ('-' :: natDigs (n + 1)) = _
    rw [jsNumber]
    simp only [List.take, List.drop, if_pos rfl]
    rw [parseDigs_natDigs, Int.negSucc_eq]
    push_cast
    ring

/-! Lemmas about typed identifiers, the canonical pair key and the
edges() decoding. -/

theorem goodId_num (n : Int) : GoodId (.num n) := by
  refine ⟨rfl, ?_⟩
  intro h
  simp only [typedId] at h
  rcases List.mem_cons.mp h with h1 | h1
  · exact absurd h1 (by decide)
  · rcases List.mem_cons.mp h1 with h2 | h2
    · exact absurd h2 (by decide)
    · exact bar_not_mem_intStr n h2

theorem goodId_str_iff (s : List Char) : GoodId (.str s) ↔ '|' ∉ s := by
  constructor
  · intro h hm
    exact h.2 (by simp [typedId, List.mem_cons, hm])
  · intro h
    refine ⟨rfl, ?_⟩
    intro hm
    simp only [typedId] at hm
    rcases List.mem_cons.mp hm with h1 | h1
    · exact absurd h1 (by decide)
    · rcases List.mem_cons.mp h1 with h2 | h2
      · exact absurd h2 (by decide)
      · exact h h2

theorem not_goodId_other (t : List Char) : ¬ GoodId (.other t) := by
  intro h
  exact absurd h.1 (by simp [JId.valid])

theorem decodePart_typedId (id : JId) (h : GoodId id) : decodePart (typedId id) = id := by
  cases id with
  | num n => simp [typedId, decodePart, jsNumber_intStr]
  | str s => simp [typedId, decodePart]
  | other t => exact absurd h (not_goodId_other t)

theorem strLt_asymm : ∀ a b : List Char, strLt a b = true → strLt b a = false
  | _, [], h => by simp [strLt] at h
  | [], _ :: _, _ => by simp [strLt]
  | a :: as, b :: bs, h => by
    by_cases h1 : a.toNat < b.toNat
    · simp [strLt, h1, Nat.lt_asymm h1, Nat.le_of_lt h1]
    · by_cases h2 : b.toNat < a.toNat
      · simp [strLt, h1, h2] at h
      · simp only [strLt, if_neg h1, if_neg h2] at h
        simp only [strLt, if_neg h1, if_neg h2]
        exact strLt_asymm as bs h

theorem strLt_antisymm : ∀ a b : List Char, strLt a b = false → strLt b a = false → a = b
  | [], [], _, _ => rfl
  | [], _ :: _, h, _ => by simp [strLt] at h
  | _ :: _, [], _, h => by simp [strLt] at h
  | a :: as, b :: bs, h, h' => by
    by_cases h1 : a.toNat < b.toNat
    · simp [strLt, h1] at h
    · by_cases h2 : b.toNat < a.toNat
      · simp [strLt, h2] at h'
      · have hab : a = b := Char.ofNat_toNat a ▸ Char.ofNat_toNat b ▸ by
          rw [Nat.le_antisymm (Nat.le_of_not_lt h2) (Nat.le_of_not_lt h1)]
        simp only [strLt, if_neg h1, if_neg h2] at h h'
        rw [hab, strLt_antisymm as bs h h']

theorem edgeKey_comm (u v : JId) : edgeKey u v = edgeKey v u := by
  unfold edgeKey
  by_cases h1 : strLt (typedId v) (typedId u) = true
  · rw [if_pos h1, if_neg (by simp [strLt_asymm _ _ h1])]
  · have h1' : strLt (typedId v) (typedId u) = false := by
      revert h1
      cases strLt (typedId v) (typedId u) <;> simp
    by_cases h2 : strLt (typedId u) (typedId v) = true
    · rw [if_neg h1, if_pos h2]
    · have h2' : strLt (typedId u) (typedId v) = false := by
        revert h2
        cases strLt (typedId u) (typedId v) <;> simp
      rw [if_neg h1, if_neg (by simp [h2']), strLt_antisymm _ _ h2' h1']

theorem splitOnBar_no_bar (s : List Char) (h : '|' ∉ s) : splitOnBar s = [s] := by
  induction s with
  | nil => rfl
  | cons c cs ih =>
    have hc : c ≠ '|' := fun he => h (he ▸ List.mem_cons_self _ _)
    have hcs : '|' ∉ cs := fun hm => h (List.mem_cons_of_mem _ hm)
    rw [splitOnBar, if_neg hc, ih hcs]

theorem splitOnBar_sep (t1 t2 : List Char) (h : '|' ∉ t1) :
    splitOnBar (t1 ++ '|' :: t2) = t1 :: splitOnBar t2 := by
  induction t1 with
  | nil => simp [splitOnBar]
  | cons c cs ih =>
    have hc : c ≠ '|' := fun he => h (he ▸ List.mem_cons_self _ _)
    have hcs : '|' ∉ cs := fun hm => h (List.mem_cons_of_mem _ hm)
    rw [List.cons_append, splitOnBar, if_neg hc, ih hcs]

theorem splitOnBar_edgeKey (u v : JId) (hu : '|' ∉ typedId u) (hv : '|' ∉ typedId v) :
    splitOnBar (edgeKey u v) = [typedId u, typedId v] ∨
      splitOnBar (edgeKey u v) = [typedId v, typedId u] := by
  unfold edgeKey
  by_cases h : strLt (typedId v) (typedId u) = true
  · right
    rw [if_pos h, splitOnBar_sep _ _ hv, splitOnBar_no_bar _ hu]
  · left
    rw [if_neg h, splitOnBar_sep _ _ hu, splitOnBar_no_bar _ hv]

theorem typedId_num_ne_str (n : Int) (t : List Char) :
    typedId (.num n) ≠ 's' :: ':' :: t := by
  intro h
  simp [typedId] at h

/-! Shape lemmas: each mutating operation either fails leaving the
state untouched or succeeds with an explicit result state. -/

theorem addNode_cases (g : Graph) (id : JId) (attr : Attr) :
    ((g.addNode id attr).2.isSome ∧ (g.addNode id attr).1 = g) ∨
      (id.valid = true ∧ g.hasNode id = false ∧
        (g.addNode id attr).1 =
          { g with adj := mapSet g.adj id [], nodesData := mapSet g.nodesData id attr } ∧
        (g.addNode id attr).2 = none) := by
  by_cases h1 : id.valid = false
  · exact Or.inl (by simp [Graph.addNode, h1])
  · by_cases h2 : g.hasNode id
    · exact Or.inl (by simp [Graph.addNode, h1, h2])
    · refine Or.inr ⟨?_, ?_, ?_, ?_⟩
      · revert h1
        cases id.valid <;> simp
      · revert h2
        cases g.hasNode id <;> simp
      · simp [Graph.addNode, h1, h2]
      · simp [Graph.addNode, h1, h2]

theorem removeNode_cases (g : Graph) (id : JId) :
    ((g.removeNode id).2.isSome ∧ (g.removeNode id).1 = g) ∨
      (∃ ns, mapGet g.adj id = some ns ∧
        (g.removeNode id).1 =
          { adj := mapDelete (ns.foldl (fun a nbr => adjDel a nbr id) g.adj) id,
            nodesData := mapDelete g.nodesData id,
            edgesData := ns.foldl (fun e nbr => mapDelete e (edgeKey id nbr)) g.edgesData } ∧
        (g.removeNode id).2 = none) := by
  cases hm : mapGet g.adj id with
  | none => exact Or.inl (by simp [Graph.removeNode, hm])
  | some ns =>
    exact Or.inr ⟨ns, rfl, by simp [Graph.removeNode, hm], by simp [Graph.removeNode, hm]⟩

theorem addEdge_cases (g : Graph) (u v : JId) (attr : Attr) :
    ((g.addEdge u v attr).2.isSome ∧ (g.addEdge u v attr).1 = g) ∨
      (∃ su sv, mapGet g.adj u = some su ∧ mapGet g.adj v = some sv ∧
        (g.addEdge u v attr).1 =
          { g with
              adj := adjAdd (adjAdd g.adj u v) v u,
              edgesData :=
                mapSet g.edgesData (edgeKey u v)
                  (match mapGet g.edgesData (edgeKey u v) with
                  | none => attr
                  | some old => objAssign old attr) } ∧
        (g.addEdge u v attr).2 = none) := by
  by_cases h1 : u.valid = false
  · exact Or.inl (by simp [Graph.addEdge, h1])
  · by_cases h2 : v.valid = false
    · exact Or.inl (by simp [Graph.addEdge, h1, h2])
    · by_cases h3 : g.hasNode u = false
      · exact Or.inl (by simp [Graph.addEdge, h1, h2, h3])
      · by_cases h4 : g.hasNode v = false
        · exact Or.inl (by simp [Graph.addEdge, h1, h2, h3, h4])
        · have hu : (mapGet g.adj u).isSome = true := by
            revert h3
            unfold Graph.hasNode
            cases (mapGet g.adj u).isSome <;> simp
          have hv : (mapGet g.adj v).isSome = true := by
            revert h4
            unfold Graph.hasNode
            cases (mapGet g.adj v).isSome <;> simp
          obtain ⟨su, hsu⟩ := Option.isSome_iff_exists.mp hu
          obtain ⟨sv, hsv⟩ := Option.isSome_iff_exists.mp hv
          refine Or.inr ⟨su, sv, hsu, hsv, ?_, ?_⟩
          · cases hm : mapGet g.edgesData (edgeKey u v) with
            | none => simp [Graph.addEdge, h1, h2, h3, h4, hm]
            | some old => simp [Graph.addEdge, h1, h2, h3, h4, hm]
          · cases hm : mapGet g.edgesData (edgeKey u v) with
            | none => simp [Graph.addEdge, h1, h2, h3, h4, hm]
            | some old => simp [Graph.addEdge, h1, h2, h3, h4, hm]

theorem removeEdge_cases (g : Graph) (u v : JId) :
    ((g.removeEdge u v).2.isSome ∧ (g.removeEdge u v).1 = g) ∨
      (g.hasEdge u v = true ∧
        (g.removeEdge u v).1 =
          { g with
              adj := adjDel (adjDel g.adj u v) v u,
              edgesData := mapDelete g.edgesData (edgeKey u v) } ∧
        (g.removeEdge u v).2 = none) := by
  by_cases h : g.hasEdge u v
  · exact Or.inr ⟨h, by simp [Graph.removeEdge, h], by simp [Graph.removeEdge, h]⟩
  · exact Or.inl (by simp [Graph.removeEdge, h])

/-! adjMem characterizations of the adjacency rewrites each operation
performs. -/

theorem adjMem_mapSet_nil (a : List (JId × List JId)) (id : JId)
    (hid : mapGet a id = none) (x y : JId) :
    adjMem (mapSet a id []) x y ↔ adjMem a x y := by
  unfold adjMem
  by_cases hx : x = id
  · subst hx
    rw [mapGet_mapSet_self]
    simp [hid]
  · rw [mapGet_mapSet_ne a id x _ (fun he => hx he.symm)]

theorem adjMem_adjAdd_single (a : List (JId × List JId)) (p q x y : JId) :
    adjMem (adjAdd a p q) x y ↔
      adjMem a x y ∨ (x = p ∧ y = q ∧ (mapGet a p).isSome = true) := by
  unfold adjMem
  by_cases hx : x = p
  · subst hx
    rw [mapGet_adjAdd a x q x, if_pos rfl]
    cases hm : mapGet a x with
    | none => simp
    | some s =>
      constructor
      · rintro ⟨s', hs', hy⟩
        replace hs' : some (setAdd s q) = some s' := hs'
        rw [Option.some_inj] at hs'
        subst hs'
        rcases (mem_setAdd s q y).mp hy with h1 | h1
        · exact Or.inl ⟨s, rfl, h1⟩
        · exact Or.inr ⟨rfl, h1, rfl⟩
      · rintro (⟨s', hs', hy⟩ | ⟨_, rfl, _⟩)
        · rw [Option.some_inj] at hs'
          subst hs'
          exact ⟨setAdd s q, rfl, (mem_setAdd s q y).mpr (Or.inl hy)⟩
        · exact ⟨setAdd s y, rfl, (mem_setAdd s y y).mpr (Or.inr rfl)⟩
  · rw [mapGet_adjAdd a p q x, if_neg hx]
    simp [hx]

theorem adjMem_adjDel_single (a : List (JId × List JId)) (p q x y : JId) :
    adjMem (adjDel a p q) x y ↔ adjMem a x y ∧ ¬ (x = p ∧ y = q) := by
  unfold adjMem
  by_cases hx : x = p
  · subst hx
    rw [mapGet_adjDel a x q x, if_pos rfl]
    cases hm : mapGet a x with
    | none => simp
    | some s =>
      constructor
      · rintro ⟨s', hs', hy⟩
        replace hs' : some (setDelete s q) = some s' := hs'
        rw [Option.some_inj] at hs'
        subst hs'
        rw [mem_setDelete] at hy
        exact ⟨⟨s, rfl, hy.1⟩, fun he => hy.2 he.2⟩
      · rintro ⟨⟨s', hs', hy⟩, hne⟩
        rw [Option.some_inj] at hs'
        subst hs'
        exact ⟨setDelete s q, rfl, (mem_setDelete s q y).mpr ⟨hy, fun he => hne ⟨rfl, he⟩⟩⟩
  · rw [mapGet_adjDel a p q x, if_neg hx]
    simp [hx]

theorem isSome_mapGet_adjAdd (a : List (JId × List JId)) (p q x : JId) :
    (mapGet (adjAdd a p q) x).isSome = (mapGet a x).isSome := by
  rw [mapGet_adjAdd]
  by_cases hx : x = p
  · subst hx
    rw [if_pos rfl]
    cases mapGet a x <;> rfl
  · rw [if_neg hx]

theorem adjMem_addEdge (a : List (JId × List JId)) (u v : JId)
    (hu : (mapGet a u).isSome = true) (hv : (mapGet a v).isSome = true) (x y : JId) :
    adjMem (adjAdd (adjAdd a u v) v u) x y ↔
      adjMem a x y ∨ (x = u ∧ y = v) ∨ (x = v ∧ y = u) := by
  rw [adjMem_adjAdd_single (adjAdd a u v) v u x y, adjMem_adjAdd_single a u v x y,
    isSome_mapGet_adjAdd, hu, hv]
  tauto

theorem adjMem_removeEdge (a : List (JId × List JId)) (u v : JId) (x y : JId) :
    adjMem (adjDel (adjDel a u v) v u) x y ↔
      adjMem a x y ∧ ¬ (x = u ∧ y = v) ∧ ¬ (x = v ∧ y = u) := by
  rw [adjMem_adjDel_single (adjDel a u v) v u x y, adjMem_adjDel_single a u v x y]
  tauto

theorem adjMem_foldl_adjDel (ns : List JId) (a : List (JId × List JId)) (id x y : JId) :
    adjMem (ns.foldl (fun m nbr => adjDel m nbr id) a) x y ↔
      adjMem a x y ∧ (x ∈ ns → y ≠ id) := by
  unfold adjMem
  rw [mapGet_foldl_adjDel]
  by_cases hx : x ∈ ns
  · rw [if_pos hx]
    cases hm : mapGet a x with
    | none => simp
    | some s =>
      constructor
      · rintro ⟨s', hs', hy⟩
        replace hs' : some (setDelete s id) = some s' := hs'
        rw [Option.some_inj] at hs'
        subst hs'
        rw [mem_setDelete] at hy
        exact ⟨⟨s, rfl, hy.1⟩, fun _ => hy.2⟩
      · rintro ⟨⟨s', hs', hy⟩, hcond⟩
        rw [Option.some_inj] at hs'
        subst hs'
        exact ⟨setDelete s id, rfl, (mem_setDelete s id y).mpr ⟨hy, hcond hx⟩⟩
  · rw [if_neg hx]
    simp [hx]

theorem adjMem_mapDelete (a : List (JId × List JId)) (id x y : JId) :
    adjMem (mapDelete a id) x y ↔ x ≠ id ∧ adjMem a x y := by
  unfold adjMem
  by_cases hx : x = id
  · subst hx
    rw [mapGet_mapDelete_self]
    simp
  · rw [mapGet_mapDelete_ne a id x (fun he => hx he.symm)]
    simp [hx]

theorem adjMem_removeNodeAdj (a : List (JId × List JId)) (ns : List JId) (id : JId)
    (hns : mapGet a id = some ns)
    (hsym : ∀ p q, adjMem a p q → adjMem a q p) (x y : JId) :
    adjMem (mapDelete (ns.foldl (fun m nbr => adjDel m nbr id) a) id) x y ↔
      adjMem a x y ∧ x ≠ id ∧ y ≠ id := by
  rw [adjMem_mapDelete, adjMem_foldl_adjDel]
  constructor
  · rintro ⟨hxid, hmem, hcond⟩
    refine ⟨hmem, hxid, ?_⟩
    intro hyid
    subst hyid
    obtain ⟨s, hs, hxs⟩ := hsym x y hmem
    rw [hns] at hs
    rw [Option.some_inj] at hs
    subst hs
    exact hcond hxs rfl
  · rintro ⟨hmem, hxid, hyid⟩
    exact ⟨hxid, hmem, fun _ => hyid⟩

/-! Preservation of the structural invariant by every operation. -/

theorem hasNode_eq_false_iff (g : Graph) (id : JId) :
    g.hasNode id = false ↔ mapGet g.adj id = none := by
  unfold Graph.hasNode
  cases mapGet g.adj id <;> simp

theorem hasEdge_iff_adjMem (g : Graph) (u v : JId) :
    g.hasEdge u v = true ↔ adjMem g.adj u v := by
  unfold Graph.hasEdge adjMem
  cases hm : mapGet g.adj u with
  | none => simp
  | some s => simp

theorem wf_empty : WF Graph.empty := by
  refine ⟨?_, ?_, rfl, ?_⟩
  · rintro x y ⟨s, hs, _⟩
    simp [Graph.empty, mapGet] at hs
  · intro k hk
    simp [Graph.empty, mapKeys] at hk
  · simp [Graph.empty, mapKeys, EdgesNodup]

theorem wf_addNode (g : Graph) (id : JId) (attr : Attr) (h : WF g) :
    WF (g.addNode id attr).1 := by
  rcases addNode_cases g id attr with ⟨_, he⟩ | ⟨_, hhas, hst, _⟩
  · rw [he]
    exact h
  · rw [hst]
    have hid : mapGet g.adj id = none := (hasNode_eq_false_iff g id).mp hhas
    have hidk : id ∉ mapKeys g.adj := (mapGet_eq_none_iff g.adj id).mp hid
    obtain ⟨hsym, href, hkeys, hnd⟩ := h
    refine ⟨?_, ?_, ?_, hnd⟩
    · intro x y hm
      dsimp only at hm ⊢
      rw [adjMem_mapSet_nil g.adj id hid] at hm ⊢
      exact hsym x y hm
    · intro k hk
      obtain ⟨u, v, hm, hkk⟩ := href k hk
      exact ⟨u, v, (adjMem_mapSet_nil g.adj id hid u v).mpr hm, hkk⟩
    · show mapKeys (mapSet g.nodesData id attr) = mapKeys (mapSet g.adj id [])
      rw [mapKeys_mapSet_of_not_mem g.adj id [] hidk,
        mapKeys_mapSet_of_not_mem g.nodesData id attr (by rw [hkeys]; exact hidk), hkeys]

theorem wf_addNodeItem (g : Graph) (item : NodeItem) (h : WF g) :
    WF (g.addNodeItem item).1 := by
  cases item with
  | bare id => exact wf_addNode g id [] h
  | pair id attr => exact wf_addNode g id attr h

theorem wf_addNodesFrom (g : Graph) (items : List NodeItem) (h : WF g) :
    WF (g.addNodesFrom items).1 := by
  induction items generalizing g with
  | nil => exact h
  | cons item rest ih =>
    show WF (Graph.addNodesFrom g (item :: rest)).1
    unfold Graph.addNodesFrom
    cases h1 : g.addNodeItem item with
    | mk g1 oe =>
      have hg1 : WF g1 := by
        have := wf_addNodeItem g item h
        rw [h1] at this
        exact this
      cases oe with
      | none => exact ih g1 hg1
      | some e => exact hg1

theorem wf_addEdge (g : Graph) (u v : JId) (attr : Attr) (h : WF g) :
    WF (g.addEdge u v attr).1 := by
  rcases addEdge_cases g u v attr with ⟨_, he⟩ | ⟨su, sv, hsu, hsv, hst, _⟩
  · rw [he]
    exact h
  · rw [hst]
    have hu : (mapGet g.adj u).isSome = true := by simp [hsu]
    have hv : (mapGet g.adj v).isSome = true := by simp [hsv]
    obtain ⟨hsym, href, hkeys, hnd⟩ := h
    refine ⟨?_, ?_, ?_, ?_⟩
    · intro x y hm
      dsimp only at hm ⊢
      rw [adjMem_addEdge g.adj u v hu hv] at hm ⊢
      rcases hm with hm | ⟨rfl, rfl⟩ | ⟨rfl, rfl⟩
      · exact Or.inl (hsym x y hm)
      · exact Or.inr (Or.inr ⟨rfl, rfl⟩)
      · exact Or.inr (Or.inl ⟨rfl, rfl⟩)
    · intro k hk
      dsimp only at hk ⊢
      rw [mem_mapKeys_mapSet] at hk
      rcases hk with hk | rfl
      · obtain ⟨u0, v0, hm, hkk⟩ := href k hk
        exact ⟨u0, v0, (adjMem_addEdge g.adj u v hu hv u0 v0).mpr (Or.inl hm), hkk⟩
      · exact ⟨u, v, (adjMem_addEdge g.adj u v hu hv u v).mpr (Or.inr (Or.inl ⟨rfl, rfl⟩)),
          rfl⟩
    · show mapKeys g.nodesData = mapKeys (adjAdd (adjAdd g.adj u v) v u)
      rw [mapKeys_adjAdd, mapKeys_adjAdd, hkeys]
    · show (mapKeys (mapSet g.edgesData (edgeKey u v) _)).Nodup
      exact nodup_mapKeys_mapSet _ _ _ hnd

theorem wf_removeNode (g : Graph) (id : JId) (h : WF g) :
    WF (g.removeNode id).1 := by
  rcases removeNode_cases g id with ⟨_, he⟩ | ⟨ns, hns, hst, _⟩
  · rw [he]
    exact h
  · rw [hst]
    obtain ⟨hsym, href, hkeys, hnd⟩ := h
    refine ⟨?_, ?_, ?_, ?_⟩
    · intro x y hm
      dsimp only at hm ⊢
      rw [adjMem_removeNodeAdj g.adj ns id hns hsym] at hm ⊢
      exact ⟨hsym x y hm.1, hm.2.2, hm.2.1⟩
    · intro k hk
      dsimp only at hk ⊢
      have hkS : (mapGet (ns.foldl (fun e nbr => mapDelete e (edgeKey id nbr)) g.edgesData)
          k).isSome = true := (mapGet_isSome_iff _ k).mpr hk
      rw [mapGet_foldl_mapDelete] at hkS
      by_cases hex : ∃ nbr ∈ ns, edgeKey id nbr = k
      · rw [if_pos hex] at hkS
        simp at hkS
      · rw [if_neg hex] at hkS
        have hkOld : k ∈ mapKeys g.edgesData := (mapGet_isSome_iff _ k).mp hkS
        obtain ⟨u0, v0, hm, hkk⟩ := href k hkOld
        have hu0 : u0 ≠ id := by
          rintro rfl
          obtain ⟨s, hs, hv0s⟩ := hm
          rw [hns, Option.some_inj] at hs
          subst hs
          exact hex ⟨v0, hv0s, hkk.symm⟩
        have hv0 : v0 ≠ id := by
          rintro rfl
          obtain ⟨s, hs, hu0s⟩ := hsym u0 v0 hm
          rw [hns, Option.some_inj] at hs
          subst hs
          exact hex ⟨u0, hu0s, by rw [edgeKey_comm]; exact hkk.symm⟩
        exact ⟨u0, v0,
          (adjMem_removeNodeAdj g.adj ns id hns hsym u0 v0).mpr ⟨hm, hu0, hv0⟩, hkk⟩
    · show mapKeys (mapDelete g.nodesData id) = mapKeys (mapDelete _ id)
      rw [mapKeys_mapDelete, mapKeys_mapDelete, mapKeys_foldl_adjDel, hkeys]
    · exact nodup_mapKeys_foldl_mapDelete ns g.edgesData _ hnd

theorem wf_removeEdge (g : Graph) (u v : JId) (h : WF g) :
    WF (g.removeEdge u v).1 := by
  rcases removeEdge_cases g u v with ⟨_, he⟩ | ⟨_, hst, _⟩
  · rw [he]
    exact h
  · rw [hst]
    obtain ⟨hsym, href, hkeys, hnd⟩ := h
    refine ⟨?_, ?_, ?_, ?_⟩
    · intro x y hm
      dsimp only at hm ⊢
      rw [adjMem_removeEdge] at hm ⊢
      obtain ⟨hmem, h1, h2⟩ := hm
      exact ⟨hsym x y hmem, fun he => h2 ⟨he.2, he.1⟩, fun he => h1 ⟨he.2, he.1⟩⟩
    · intro k hk
      dsimp only at hk ⊢
      rw [mapKeys_mapDelete] at hk
      rw [mem_setDelete] at hk
      obtain ⟨u0, v0, hm, hkk⟩ := href k hk.1
      refine ⟨u0, v0, (adjMem_removeEdge g.adj u v u0 v0).mpr ⟨hm, ?_, ?_⟩, hkk⟩
      · rintro ⟨rfl, rfl⟩
        exact hk.2 hkk
      · rintro ⟨rfl, rfl⟩
        rw [edgeKey_comm] at hkk
        exact hk.2 hkk
    · show mapKeys g.nodesData = mapKeys (adjDel (adjDel g.adj u v) v u)
      rw [mapKeys_adjDel, mapKeys_adjDel, hkeys]
    · exact nodup_mapKeys_mapDelete _ _ hnd

theorem reachable_wf (g : Graph) (h : Reachable g) : WF g := by
  induction h with
  | empty => exact wf_empty
  | addNode g id attr _ ih => exact wf_addNode g id attr ih
  | addNodesFrom g items _ ih => exact wf_addNodesFrom g items ih
  | removeNode g id _ ih => exact wf_removeNode g id ih
  | addEdge g u v attr _ ih => exact wf_addEdge g u v attr ih
  | removeEdge g u v _ ih => exact wf_removeEdge g u v ih

/-! Preservation of identifier goodness by every operation whose node
creation arguments are good. -/

theorem goodG_empty : GoodG Graph.empty := by
  intro u hu
  simp [Graph.empty, mapGet] at hu

theorem goodG_addNode (g : Graph) (id : JId) (attr : Attr) (hg : GoodG g)
    (hid : GoodId id) : GoodG (g.addNode id attr).1 := by
  rcases addNode_cases g id attr with ⟨_, he⟩ | ⟨_, _, hst, _⟩
  · rw [he]
    exact hg
  · rw [hst]
    intro x hx
    dsimp only at hx
    rw [mapGet_isSome_iff, mem_mapKeys_mapSet] at hx
    rcases hx with hx | rfl
    · exact hg x ((mapGet_isSome_iff g.adj x).mpr hx)
    · exact hid

theorem goodG_addNodeItem (g : Graph) (item : NodeItem) (hg : GoodG g)
    (hid : GoodId item.idOf) : GoodG (g.addNodeItem item).1 := by
  cases item with
  | bare id => exact goodG_addNode g id [] hg hid
  | pair id attr => exact goodG_addNode g id attr hg hid

theorem goodG_addNodesFrom (g : Graph) (items : List NodeItem) (hg : GoodG g)
    (hid : ∀ item ∈ items, GoodId item.idOf) : GoodG (g.addNodesFrom items).1 := by
  induction items generalizing g with
  | nil => exact hg
  | cons item rest ih =>
    show GoodG (Graph.addNodesFrom g (item :: rest)).1
    unfold Graph.addNodesFrom
    cases h1 : g.addNodeItem item with
    | mk g1 oe =>
      have hg1 : GoodG g1 := by
        have := goodG_addNodeItem g item hg (hid item (List.mem_cons_self _ _))
        rw [h1] at this
        exact this
      cases oe with
      | none => exact ih g1 hg1 (fun it hit => hid it (List.mem_cons_of_mem _ hit))
      | some e => exact hg1

theorem goodG_removeNode (g : Graph) (id : JId) (hg : GoodG g) :
    GoodG (g.removeNode id).1 := by
  rcases removeNode_cases g id with ⟨_, he⟩ | ⟨ns, _, hst, _⟩
  · rw [he]
    exact hg
  · rw [hst]
    intro x hx
    dsimp only at hx
    rw [mapGet_isSome_iff, mapKeys_mapDelete, mapKeys_foldl_adjDel] at hx
    have := ((mem_setDelete _ _ _).mp hx).1
    exact hg x ((mapGet_isSome_iff g.adj x).mpr this)

theorem goodG_addEdge (g : Graph) (u v : JId) (attr : Attr) (hg : GoodG g) :
    GoodG (g.addEdge u v attr).1 := by
  rcases addEdge_cases g u v attr with ⟨_, he⟩ | ⟨su, sv, _, _, hst, _⟩
  · rw [he]
    exact hg
  · rw [hst]
    intro x hx
    dsimp only at hx
    rw [mapGet_isSome_iff, mapKeys_adjAdd, mapKeys_adjAdd] at hx
    exact hg x ((mapGet_isSome_iff g.adj x).mpr hx)

theorem goodG_removeEdge (g : Graph) (u v : JId) (hg : GoodG g) :
    GoodG (g.removeEdge u v).1 := by
  rcases removeEdge_cases g u v with ⟨_, he⟩ | ⟨_, hst, _⟩
  · rw [he]
    exact hg
  · rw [hst]
    intro x hx
    dsimp only at hx
    rw [mapGet_isSome_iff, mapKeys_adjDel, mapKeys_adjDel] at hx
    exact hg x ((mapGet_isSome_iff g.adj x).mpr hx)

theorem reachableG_good (g : Graph) (h : ReachableG g) : GoodG g := by
  induction h with
  | empty => exact goodG_empty
  | addNode g id attr _ hid ih => exact goodG_addNode g id attr ih hid
  | addNodesFrom g items _ hid ih => exact goodG_addNodesFrom g items ih hid
  | removeNode g id _ ih => exact goodG_removeNode g id ih
  | addEdge g u v attr _ ih => exact goodG_addEdge g u v attr ih
  | removeEdge g u v _ ih => exact goodG_removeEdge g u v ih

theorem reachableG_wf (g : Graph) (h : ReachableG g) : WF g := by
  induction h with
  | empty => exact wf_empty
  | addNode g id attr _ _ ih => exact wf_addNode g id attr ih
  | addNodesFrom g items _ _ ih => exact wf_addNodesFrom g items ih
  | removeNode g id _ ih => exact wf_removeNode g id ih
  | addEdge g u v attr _ ih => exact wf_addEdge g u v attr ih
  | removeEdge g u v _ ih => exact wf_removeEdge g u v ih

/-! Unchanged-on-error helper lemmas. -/

theorem addNode_unchanged_of_err (g : Graph) (id : JId) (attr : Attr)
    (h : (g.addNode id attr).2.isSome = true) : (g.addNode id attr).1 = g := by
  rcases addNode_cases g id attr with ⟨_, he⟩ | ⟨_, _, _, h2⟩
  · exact he
  · rw [h2] at h
    simp at h

theorem removeNode_unchanged_of_err (g : Graph) (id : JId)
    (h : (g.removeNode id).2.isSome = true) : (g.removeNode id).1 = g := by
  rcases removeNode_cases g id with ⟨_, he⟩ | ⟨_, _, _, h2⟩
  · exact he
  · rw [h2] at h
    simp at h

theorem addEdge_unchanged_of_err (g : Graph) (u v : JId) (attr : Attr)
    (h : (g.addEdge u v attr).2.isSome = true) : (g.addEdge u v attr).1 = g := by
  rcases addEdge_cases g u v attr with ⟨_, he⟩ | ⟨_, _, _, _, _, h2⟩
  · exact he
  · rw [h2] at h
    simp at h

theorem removeEdge_unchanged_of_err (g : Graph) (u v : JId)
    (h : (g.removeEdge u v).2.isSome = true) : (g.removeEdge u v).1 = g := by
  rcases removeEdge_cases g u v with ⟨_, he⟩ | ⟨_, _, h2⟩
  · exact he
  · rw [h2] at h
    simp at h

theorem addNodeItem_unchanged_of_err (g : Graph) (item : NodeItem)
    (h : (g.addNodeItem item).2.isSome = true) : (g.addNodeItem item).1 = g := by
  cases item with
  | bare id => exact addNode_unchanged_of_err g id [] h
  | pair id attr => exact addNode_unchanged_of_err g id attr h

/-! Reachability of the example containers. -/

theorem reachable_exGraph : Reachable exGraph := by
  unfold exGraph exBase
  exact Reachable.addEdge _ _ _ _ (Reachable.addNode _ _ _
    (Reachable.addNode _ _ _ (Reachable.addNode _ _ _ Reachable.empty)))

theorem reachableG_exGraph : ReachableG exGraph := by
  unfold exGraph exBase
  exact ReachableG.addEdge _ _ _ _ (ReachableG.addNode _ _ _
    (ReachableG.addNode _ _ _ (ReachableG.addNode _ _ _ ReachableG.empty (goodId_num 1))
      (goodId_num 2)) ((goodId_str_iff ['A']).mpr (by decide)))

theorem reachable_barGraph : Reachable barGraph := by
  unfold barGraph
  exact Reachable.addEdge _ _ _ _ (Reachable.addNode _ _ _ Reachable.empty)

theorem reachable_loopGraph : Reachable loopGraph := by
  unfold loopGraph
  exact Reachable.addEdge _ _ _ _ (Reachable.addNode _ _ _ Reachable.empty)

/-- Claim C2: in every state reachable from the empty container by any
sequence of operations, adjacency is bidirectional (each neighbor entry
has its reciprocal) and every identifier appearing in a neighbor set or
referenced by a stored edge key exists in the node set; reachability
being closed under the five operations, every operation preserves this
invariant. -/
theorem C2_adjacency_invariant :
    ∀ g, Reachable g →
      (∀ u v, adjMem g.adj u v → adjMem g.adj v u) ∧
      (∀ u v, adjMem g.adj u v → g.hasNode u = true ∧ g.hasNode v = true) ∧
      (∀ k ∈ mapKeys g.edgesData, ∃ u v, g.hasNode u = true ∧ g.hasNode v = true ∧
        adjMem g.adj u v ∧ k = edgeKey u v) := by
  intro g h
  obtain ⟨hsym, href, _, _⟩ := reachable_wf g h
  have hEx : ∀ u v, adjMem g.adj u v → g.hasNode u = true ∧ g.hasNode v = true := by
    intro u v hm
    obtain ⟨s', hs', _⟩ := hsym u v hm
    obtain ⟨s, hs, _⟩ := hm
    constructor <;> unfold Graph.hasNode
    · rw [hs]
      rfl
    · rw [hs']
      rfl
  refine ⟨hsym, hEx, ?_⟩
  intro k hk
  obtain ⟨u, v, hm, hkk⟩ := href k hk
  exact ⟨u, v, (hEx u v hm).1, (hEx u v hm).2, hm, hkk⟩

/-- Witness for C2 on a concrete container: the edge inserted as (1, A)
yields the reciprocal adjacency entry from A back to 1. -/
theorem C2_adjacency_invariant_witness :
    adjMem exGraph.adj (JId.str ['A']) (JId.num 1) :=
  (C2_adjacency_invariant exGraph reachable_exGraph).1 (JId.num 1) (JId.str ['A'])
    ⟨[JId.str ['A']], rfl, by decide⟩

/-- Claim C5: every failing mutating call returns the state unchanged
(addNodesFrom excepted, by design), and a failing addEdge reports
InvalidIdentifier when an argument kind is wrong, otherwise NodeNotFound
for u before v, with no mutation. The read-only operations return no
state at all in this embedding. -/
theorem C5_error_unchanged :
    (∀ (g : Graph) (id : JId) (attr : Attr) (e : GErr),
        (g.addNode id attr).2 = some e → (g.addNode id attr).1 = g) ∧
    (∀ (g : Graph) (id : JId) (e : GErr),
        (g.removeNode id).2 = some e → (g.removeNode id).1 = g) ∧
    (∀ (g : Graph) (u v : JId) (attr : Attr) (e : GErr),
        (g.addEdge u v attr).2 = some e → (g.addEdge u v attr).1 = g) ∧
    (∀ (g : Graph) (u v : JId) (e : GErr),
        (g.removeEdge u v).2 = some e → (g.removeEdge u v).1 = g) ∧
    (∀ (g : Graph) (u v : JId) (attr : Attr), u.valid = false →
        g.addEdge u v attr = (g, some (.invalidId u))) ∧
    (∀ (g : Graph) (u v : JId) (attr : Attr), u.valid = true → v.valid = false →
        g.addEdge u v attr = (g, some (.invalidId v))) ∧
    (∀ (g : Graph) (u v : JId) (attr : Attr), u.valid = true → v.valid = true →
        g.hasNode u = false → g.addEdge u v attr = (g, some (.nodeNotFound u))) ∧
    (∀ (g : Graph) (u v : JId) (attr : Attr), u.valid = true → v.valid = true →
        g.hasNode u = true → g.hasNode v = false →
        g.addEdge u v attr = (g, some (.nodeNotFound v))) := by
  refine ⟨?_, ?_, ?_, ?_, ?_, ?_, ?_, ?_⟩
  · intro g id attr e h
    exact addNode_unchanged_of_err g id attr (by rw [h]; rfl)
  · intro g id e h
    exact removeNode_unchanged_of_err g id (by rw [h]; rfl)
  · intro g u v attr e h
    exact addEdge_unchanged_of_err g u v attr (by rw [h]; rfl)
  · intro g u v e h
    exact removeEdge_unchanged_of_err g u v (by rw [h]; rfl)
  · intro g u v attr h1
    simp [Graph.addEdge, h1]
  · intro g u v attr h1 h2
    simp [Graph.addEdge, h1, h2]
  · intro g u v attr h1 h2 h3
    simp [Graph.addEdge, h1, h2, h3]
  · intro g u v attr h1 h2 h3 h4
    simp [Graph.addEdge, h1, h2, h3, h4]

/-- Witness for C5: a duplicate addNode leaves the concrete container
unchanged, and an addEdge with an argument of invalid kind fails with
InvalidIdentifier without touching the state. -/
theorem C5_error_unchanged_witness :
    (exGraph.addNode (JId.num 1) []).1 = exGraph ∧
    exGraph.addEdge (JId.other ['u']) (JId.num 1) [] =
      (exGraph, some (GErr.invalidId (JId.other ['u']))) := by
  constructor
  · exact C5_error_unchanged.1 exGraph (JId.num 1) [] (GErr.duplicateNode (JId.num 1)) (by rfl)
  · exact C5_error_unchanged.2.2.2.2.1 exGraph (JId.other ['u']) (JId.num 1) [] (by rfl)

/-- Claim C9: hasEdge is a total boolean query: it returns false
whenever the first argument has no node entry (whatever the second
argument, identifiers of invalid kind included) and otherwise reports
exactly the membership of the second argument in the neighbor set. -/
theorem C9_hasEdge_never_fails :
    ∀ (g : Graph) (u v : JId),
      (g.hasNode u = false → g.hasEdge u v = false) ∧
      (∀ ns, mapGet g.adj u = some ns → (g.hasEdge u v = true ↔ v ∈ ns)) := by
  intro g u v
  constructor
  · intro h
    unfold Graph.hasEdge
    rw [(hasNode_eq_false_iff g u).mp h]
  · intro ns hns
    unfold Graph.hasEdge
    rw [hns]
    simp

/-- Witness for C9: on the concrete container, hasEdge is false for an
absent (invalid-kind) identifier and true on the stored edge. -/
theorem C9_hasEdge_never_fails_witness :
    exGraph.hasEdge (JId.other ['x']) (JId.num 1) = false ∧
    exGraph.hasEdge (JId.num 1) (JId.str ['A']) = true := by
  constructor
  · exact (C9_hasEdge_never_fails exGraph (JId.other ['x']) (JId.num 1)).1 (by rfl)
  · exact ((C9_hasEdge_never_fails exGraph (JId.num 1) (JId.str ['A'])).2
      [JId.str ['A']] (by rfl)).mpr (by decide)

/-- Claim C10: in every reachable state the adjacency map and the node
attribute map hold exactly the same keys, so node lookup on an existing
node always returns a stored record and no record exists for an absent
node. -/
theorem C10_node_data_sync :
    ∀ g, Reachable g →
      mapKeys g.nodesData = mapKeys g.adj ∧
      (∀ id, g.hasNode id = true → ∃ a, g.node id = Except.ok (some a)) ∧
      (∀ id, g.hasNode id = false → mapGet g.nodesData id = none) := by
  intro g h
  obtain ⟨_, _, hkeys, _⟩ := reachable_wf g h
  refine ⟨hkeys, ?_, ?_⟩
  · intro id hid
    have hmem : id ∈ mapKeys g.adj := (mapGet_isSome_iff g.adj id).mp hid
    rw [← hkeys] at hmem
    have hS : (mapGet g.nodesData id).isSome = true :=
      (mapGet_isSome_iff g.nodesData id).mpr hmem
    obtain ⟨a, ha⟩ := Option.isSome_iff_exists.mp hS
    refine ⟨a, ?_⟩
    unfold Graph.node
    rw [if_pos hid, ha]
  · intro id hid
    have hmem : id ∉ mapKeys g.adj := by
      rw [← mapGet_isSome_iff]
      rw [(hasNode_eq_false_iff g id).mp hid]
      simp
    rw [← hkeys] at hmem
    exact (mapGet_eq_none_iff g.nodesData id).mpr hmem

/-- Witness for C10: on the concrete container, the key lists agree,
node 2 has a stored record and identifier 9 has none. -/
theorem C10_node_data_sync_witness :
    mapKeys exGraph.nodesData = mapKeys exGraph.adj ∧
    (∃ a, exGraph.node (JId.num 2) = Except.ok (some a)) ∧
    mapGet exGraph.nodesData (JId.num 9) = none := by
  obtain ⟨h1, h2, h3⟩ := C10_node_data_sync exGraph reachable_exGraph
  exact ⟨h1, h2 (JId.num 2) (by rfl), h3 (JId.num 9) (by rfl)⟩

/-! addNodesFrom unfolding lemmas. -/

theorem addNodesFrom_cons (g : Graph) (item : NodeItem) (rest : List NodeItem) :
    g.addNodesFrom (item :: rest) =
      (match g.addNodeItem item with
       | (g1, none) => g1.addNodesFrom rest
       | (g1, some e) => (g1, some e)) := rfl

theorem addNodesFrom_cons_ok (g g1 : Graph) (item : NodeItem) (rest : List NodeItem)
    (h : g.addNodeItem item = (g1, none)) :
    g.addNodesFrom (item :: rest) = g1.addNodesFrom rest := by
  rw [addNodesFrom_cons, h]

theorem addNodesFrom_cons_err (g g1 : Graph) (item : NodeItem) (rest : List NodeItem)
    (e : GErr) (h : g.addNodeItem item = (g1, some e)) :
    g.addNodesFrom (item :: rest) = (g1, some e) := by
  rw [addNodesFrom_cons, h]

/-- Claim C3: a successful addEdge makes the edge visible from both
orientations with one shared record, and in any reachable state a
stored edge is observed identically from (u, v) and (v, u). -/
theorem C3_edge_symmetric :
    ∀ (g : Graph) (u v : JId) (attr : Attr),
      ((g.addEdge u v attr).2 = none →
        (g.addEdge u v attr).1.hasEdge u v = true ∧
        (g.addEdge u v attr).1.hasEdge v u = true ∧
        (g.addEdge u v attr).1.edge u v = (g.addEdge u v attr).1.edge v u) ∧
      (Reachable g → g.hasEdge u v = true → g.edge u v = g.edge v u) := by
  intro g u v attr
  constructor
  · intro hok
    rcases addEdge_cases g u v attr with ⟨hi, _⟩ | ⟨su, sv, hsu, hsv, hst, _⟩
    · rw [hok] at hi
      simp at hi
    · have hu : (mapGet g.adj u).isSome = true := by simp [hsu]
      have hv : (mapGet g.adj v).isSome = true := by simp [hsv]
      have h1 : (g.addEdge u v attr).1.hasEdge u v = true := by
        rw [hasEdge_iff_adjMem, hst]
        dsimp only
        exact (adjMem_addEdge g.adj u v hu hv u v).mpr (Or.inr (Or.inl ⟨rfl, rfl⟩))
      have h2 : (g.addEdge u v attr).1.hasEdge v u = true := by
        rw [hasEdge_iff_adjMem, hst]
        dsimp only
        exact (adjMem_addEdge g.adj u v hu hv v u).mpr (Or.inr (Or.inr ⟨rfl, rfl⟩))
      refine ⟨h1, h2, ?_⟩
      unfold Graph.edge
      rw [if_pos h1, if_pos h2, edgeKey_comm u v]
  · intro hr he
    obtain ⟨hsym, _, _, _⟩ := reachable_wf g hr
    have hvu : g.hasEdge v u = true := by
      rw [hasEdge_iff_adjMem] at he ⊢
      exact hsym u v he
    unfold Graph.edge
    rw [if_pos he, if_pos hvu, edgeKey_comm u v]

/-- Witness for C3: inserting the (1, A) edge into the concrete base
container yields an edge seen from both sides with equal records. -/
theorem C3_edge_symmetric_witness :
    exGraph.hasEdge (JId.num 1) (JId.str ['A']) = true ∧
    exGraph.hasEdge (JId.str ['A']) (JId.num 1) = true ∧
    exGraph.edge (JId.num 1) (JId.str ['A']) = exGraph.edge (JId.str ['A']) (JId.num 1) :=
  (C3_edge_symmetric exBase (JId.num 1) (JId.str ['A']) [(['w'], .vnum 5)]).1 (by rfl)

/-- Claim C4: removing an existing node succeeds and removes every
incident edge: for every call-time neighbor v, afterwards hasEdge in
both orientations is false and the edge record is gone, and the node
itself loses its adjacency entry and attribute record (self loops
included). -/
theorem C4_removeNode_removes_incident :
    ∀ (g : Graph) (id : JId) (ns : List JId), Reachable g → mapGet g.adj id = some ns →
      (g.removeNode id).2 = none ∧
      (g.removeNode id).1.hasNode id = false ∧
      mapGet (g.removeNode id).1.nodesData id = none ∧
      ∀ v ∈ ns,
        (g.removeNode id).1.hasEdge id v = false ∧
        (g.removeNode id).1.hasEdge v id = false ∧
        mapGet (g.removeNode id).1.edgesData (edgeKey id v) = none := by
  intro g id ns hr hns
  obtain ⟨hsym, _, _, _⟩ := reachable_wf g hr
  have hpair : g.removeNode id =
      ({ adj := mapDelete (ns.foldl (fun a nbr => adjDel a nbr id) g.adj) id,
         nodesData := mapDelete g.nodesData id,
         edgesData := ns.foldl (fun e nbr => mapDelete e (edgeKey id nbr)) g.edgesData },
       none) := by
    unfold Graph.removeNode
    rw [hns]
  rw [hpair]
  refine ⟨rfl, ?_, ?_, ?_⟩
  · unfold Graph.hasNode
    dsimp only
    rw [mapGet_mapDelete_self]
    rfl
  · dsimp only
    exact mapGet_mapDelete_self _ _
  · intro v hv
    refine ⟨?_, ?_, ?_⟩
    · unfold Graph.hasEdge
      dsimp only
      rw [mapGet_mapDelete_self]
    · rw [Bool.eq_false_iff]
      intro htrue
      have hadj := (hasEdge_iff_adjMem _ v id).mp htrue
      dsimp only at hadj
      rw [adjMem_removeNodeAdj g.adj ns id hns hsym] at hadj
      exact hadj.2.2 rfl
    · dsimp only
      rw [mapGet_foldl_mapDelete, if_pos ⟨v, hv, rfl⟩]

/-- Witness for C4 on the concrete self-loop container: removing node 7
succeeds, removes the node, its record and the loop edge. -/
theorem C4_removeNode_removes_incident_witness :
    (loopGraph.removeNode (JId.num 7)).2 = none ∧
    (loopGraph.removeNode (JId.num 7)).1.hasNode (JId.num 7) = false ∧
    mapGet (loopGraph.removeNode (JId.num 7)).1.nodesData (JId.num 7) = none ∧
    ∀ v ∈ [JId.num 7],
      (loopGraph.removeNode (JId.num 7)).1.hasEdge (JId.num 7) v = false ∧
      (loopGraph.removeNode (JId.num 7)).1.hasEdge v (JId.num 7) = false ∧
      mapGet (loopGraph.removeNode (JId.num 7)).1.edgesData (edgeKey (JId.num 7) v) = none :=
  C4_removeNode_removes_incident loopGraph (JId.num 7) [JId.num 7]
    reachable_loopGraph (by rfl)

/-- Claim C6: for an existing pair, a successful addEdge stores the
supplied record when no record exists under the canonical key, and
otherwise merges the supplied fields into the existing record
field-by-field with the incoming value winning per field. -/
theorem C6_merge_attributes :
    ∀ (g : Graph) (u v : JId) (attr : Attr),
      ((g.addEdge u v attr).2 = none → mapGet g.edgesData (edgeKey u v) = none →
        mapGet (g.addEdge u v attr).1.edgesData (edgeKey u v) = some attr) ∧
      (∀ old, (g.addEdge u v attr).2 = none → mapGet g.edgesData (edgeKey u v) = some old →
        mapGet (g.addEdge u v attr).1.edgesData (edgeKey u v) = some (objAssign old attr)) := by
  intro g u v attr
  constructor
  · intro hok hnone
    rcases addEdge_cases g u v attr with ⟨hi, _⟩ | ⟨su, sv, _, _, hst, _⟩
    · rw [hok] at hi
      simp at hi
    · rw [hst]
      dsimp only
      rw [hnone]
      exact mapGet_mapSet_self _ _ _
  · intro old hok hsome
    rcases addEdge_cases g u v attr with ⟨hi, _⟩ | ⟨su, sv, _, _, hst, _⟩
    · rw [hok] at hi
      simp at hi
    · rw [hst]
      dsimp only
      rw [hsome]
      exact mapGet_mapSet_self _ _ _

/-- Witness for C6: redeclaring the concrete (1, 2) edge with a second
field merges into the record holding both fields. -/
theorem C6_merge_attributes_witness :
    mapGet (mergeGraph.addEdge (JId.num 1) (JId.num 2)
        [(['b'], JVal.vnum 2)]).1.edgesData (edgeKey (JId.num 1) (JId.num 2)) =
      some [(['a'], JVal.vnum 1), (['b'], JVal.vnum 2)] :=
  (C6_merge_attributes mergeGraph (JId.num 1) (JId.num 2) [(['b'], JVal.vnum 2)]).2
    [(['a'], JVal.vnum 1)] (by rfl) (by rfl)

/-- Claim C8: addNodesFrom applies addNode to each item in order (bare
identifiers get an empty record), keeps the nodes added before a
failing item and processes nothing after it. -/
theorem C8_addNodesFrom_sequential :
    (∀ (g : Graph) (id : JId), g.addNodeItem (.bare id) = g.addNode id []) ∧
    (∀ (g : Graph) (id : JId) (attr : Attr),
        g.addNodeItem (.pair id attr) = g.addNode id attr) ∧
    (∀ g : Graph, g.addNodesFrom [] = (g, none)) ∧
    (∀ (g g1 : Graph) (item : NodeItem) (rest : List NodeItem),
        g.addNodeItem item = (g1, none) →
        g.addNodesFrom (item :: rest) = g1.addNodesFrom rest) ∧
    (∀ (g g1 : Graph) (item : NodeItem) (rest : List NodeItem) (e : GErr),
        g.addNodeItem item = (g1, some e) →
        g.addNodesFrom (item :: rest) = (g1, some e)) ∧
    (∀ (g g1 : Graph) (pre post : List NodeItem) (item : NodeItem) (e : GErr),
        g.addNodesFrom pre = (g1, none) → (g1.addNodeItem item).2 = some e →
        g.addNodesFrom (pre ++ item :: post) = (g1, some e)) := by
  refine ⟨fun g id => rfl, fun g id attr => rfl, fun g => rfl,
    addNodesFrom_cons_ok, addNodesFrom_cons_err, ?_⟩
  intro g g1 pre post item e hpre herr
  induction pre generalizing g with
  | nil =>
    have hg : g = g1 := congrArg Prod.fst hpre
    subst hg
    cases h1 : g.addNodeItem item with
    | mk ga oe =>
      rw [h1] at herr
      dsimp only at herr
      subst herr
      have hga : ga = g := by
        have h2 := addNodeItem_unchanged_of_err g item (by rw [h1]; rfl)
        rw [h1] at h2
        exact h2
      rw [List.nil_append]
      rw [addNodesFrom_cons_err g ga item post e h1, hga]
  | cons p pre' ih =>
    cases h1 : g.addNodeItem p with
    | mk ga oe =>
      cases oe with
      | none =>
        rw [addNodesFrom_cons_ok g ga p pre' h1] at hpre
        rw [List.cons_append, addNodesFrom_cons_ok g ga p _ h1]
        exact ih ga hpre
      | some e' =>
        rw [addNodesFrom_cons_err g ga p pre' e' h1] at hpre
        simp at hpre

/-- Witness for C8: from the empty container, a duplicate identifier in
the middle of the sequence keeps the first node added, reports the
duplicate and never processes the item after it. -/
theorem C8_addNodesFrom_sequential_witness :
    Graph.empty.addNodesFrom
        [.bare (JId.num 5), .bare (JId.num 5), .bare (JId.num 6)] =
      ((Graph.empty.addNode (JId.num 5) []).1,
        some (GErr.duplicateNode (JId.num 5))) :=
  C8_addNodesFrom_sequential.2.2.2.2.2 Graph.empty (Graph.empty.addNode (JId.num 5) []).1
    [.bare (JId.num 5)] [.bare (JId.num 6)] (.bare (JId.num 5))
    (GErr.duplicateNode (JId.num 5)) (by rfl) (by rfl)

/-- Claim C7: integral and textual identifiers never collide: the two
kinds are distinct values, their kind-tagged forms differ, canonical
pair keys built from a number and from the same-spelling string differ
(for bar-free identifiers), and adding 1 and then the string 1
concretely yields two coexisting nodes. -/
theorem C7_kind_no_collision :
    (∀ (n : Int) (s : List Char), JId.num n ≠ JId.str s) ∧
    (∀ (n : Int) (s : List Char), typedId (.num n) ≠ typedId (.str s)) ∧
    (∀ (n : Int) (s : List Char) (w : JId), GoodId w → '|' ∉ s →
        edgeKey (.num n) w ≠ edgeKey (.str s) w) ∧
    (((Graph.empty.addNode (.num 1) []).1.addNode (.str ['1']) []).2 = none ∧
      ((Graph.empty.addNode (.num 1) []).1.addNode (.str ['1']) []).1.numberOfNodes = 2 ∧
      ((Graph.empty.addNode (.num 1) []).1.addNode
        (.str ['1']) []).1.hasNode (.num 1) = true ∧
      ((Graph.empty.addNode (.num 1) []).1.addNode
        (.str ['1']) []).1.hasNode (.str ['1']) = true) := by
  have pair_eq : ∀ a b c d : List Char, [a, b] = [c, d] → a = c ∧ b = d := by
    intro a b c d h
    injection h with h1 h2
    injection h2 with h3 _
    exact ⟨h1, h3⟩
  have hne : ∀ (n : Int) (s : List Char), typedId (.num n) ≠ typedId (.str s) :=
    fun n s h => typedId_num_ne_str n s h
  refine ⟨?_, hne, ?_, by rfl, by rfl, by rfl, by rfl⟩
  · intro n s h
    exact JId.noConfusion h
  · intro n s w hw hs heq
    have hGn : GoodId (JId.num n) := goodId_num n
    have hGs : GoodId (JId.str s) := (goodId_str_iff s).mpr hs
    have h1 := splitOnBar_edgeKey (.num n) w hGn.2 hw.2
    have h2 := splitOnBar_edgeKey (.str s) w hGs.2 hw.2
    rw [heq] at h1
    rcases h1 with h1 | h1 <;> rcases h2 with h2 | h2
    · exact hne n s (pair_eq _ _ _ _ (h1.symm.trans h2)).1
    · obtain ⟨ha, hb⟩ := pair_eq _ _ _ _ (h1.symm.trans h2)
      exact hne n s (ha.trans hb)
    · obtain ⟨ha, hb⟩ := pair_eq _ _ _ _ (h1.symm.trans h2)
      exact hne n s (hb.trans ha)
    · exact hne n s (pair_eq _ _ _ _ (h1.symm.trans h2)).2

/-- Witness for C7: the canonical key of the edge between number 1 and
number 2 differs from the key of the edge between string 1 and
number 2. -/
theorem C7_kind_no_collision_witness :
    edgeKey (JId.num 1) (JId.num 2) ≠ edgeKey (JId.str ['1']) (JId.num 2) :=
  C7_kind_no_collision.2.2.1 1 ['1'] (JId.num 2) (goodId_num 2) (by decide)

/-- Claim C1 (amended): in every state reachable with bar-free textual
identifiers, numberOfEdges equals the length of edges(), and every
triple (u, v, attr) of edges() satisfies edge(u, v) = attr. As stated
over arbitrary textual identifiers the claim fails, see the
counterexample with a bar in the identifier. -/
theorem C1_edges_roundtrip :
    ∀ g, ReachableG g →
      g.numberOfEdges = g.edges.length ∧
      ∀ t ∈ g.edges, g.edge t.1 t.2.1 = Except.ok (some t.2.2) := by
  intro g h
  obtain ⟨hsym, href, hkeys, hnd⟩ := reachableG_wf g h
  have hg := reachableG_good g h
  constructor
  · unfold Graph.numberOfEdges Graph.edges
    rw [List.length_map]
  · intro t ht
    unfold Graph.edges at ht
    rw [List.mem_map] at ht
    obtain ⟨⟨k, attr⟩, hka, hteq⟩ := ht
    subst hteq
    dsimp only
    have hkk : k ∈ mapKeys g.edgesData := (mem_mapKeys g.edgesData k).mpr ⟨attr, hka⟩
    obtain ⟨u, v, hm, hke⟩ := href k hkk
    have hGu : GoodId u := by
      obtain ⟨s, hs, _⟩ := hm
      exact hg u (by rw [hs]; rfl)
    have hmv : adjMem g.adj v u := hsym u v hm
    have hGv : GoodId v := by
      obtain ⟨s, hs, _⟩ := hmv
      exact hg v (by rw [hs]; rfl)
    have hget : mapGet g.edgesData k = some attr :=
      mapGet_eq_some_of_mem_nodup g.edgesData k attr hnd hka
    subst hke
    rcases splitOnBar_edgeKey u v hGu.2 hGv.2 with hsp | hsp
    · rw [hsp]
      simp only [List.getD_cons_zero, List.getD_cons_succ]
      rw [decodePart_typedId u hGu, decodePart_typedId v hGv]
      have he : g.hasEdge u v = true := (hasEdge_iff_adjMem g u v).mpr hm
      unfold Graph.edge
      rw [if_pos he, hget]
    · rw [hsp]
      simp only [List.getD_cons_zero, List.getD_cons_succ]
      rw [decodePart_typedId v hGv, decodePart_typedId u hGu]
      have he : g.hasEdge v u = true := (hasEdge_iff_adjMem g v u).mpr hmv
      unfold Graph.edge
      rw [if_pos he, edgeKey_comm v u, hget]

/-- Witness for C1 on the concrete container with a numeric and a
textual node joined by one edge. -/
theorem C1_edges_roundtrip_witness :
    exGraph.numberOfEdges = exGraph.edges.length ∧
    ∀ t ∈ exGraph.edges, exGraph.edge t.1 t.2.1 = Except.ok (some t.2.2) :=
  C1_edges_roundtrip exGraph reachableG_exGraph

/-- Counterexample to claim C1 as stated: in the reachable container
holding the single textual node a-bar-b with a self loop, edges()
splits the pair key at the bars inside the identifier and returns the
triple (a, empty string, record); edge() on those endpoints fails
instead of returning the record. -/
theorem C1_edges_roundtrip_counterexample :
    Reachable barGraph ∧
    barGraph.edges = [(JId.str ['a'], JId.str [], [])] ∧
    ¬ (∀ t ∈ barGraph.edges, barGraph.edge t.1 t.2.1 = Except.ok (some t.2.2)) := by
  refine ⟨reachable_barGraph, by rfl, ?_⟩
  intro hAll
  have hmem : (JId.str ['a'], JId.str [], ([] : Attr)) ∈ barGraph.edges := by
    rw [show barGraph.edges = [(JId.str ['a'], JId.str [], ([] : Attr))] from rfl]
    exact List.mem_singleton.mpr rfl
  have h2 := hAll _ hmem
  have h3 : barGraph.edge (JId.str ['a']) (JId.str []) =
      Except.error (GErr.edgeNotFound (JId.str ['a']) (JId.str [])) := rfl
  rw [h3] at h2
  exact Except.noConfusion h2

end NXJS
